import Mathlib

/-!
Verification of `benchmark_plot.py`: a shallow embedding in Lean 4 of the
aggregator `process_benchmark_data` and the renderer `create_bar_chart`,
together with proofs of the specified properties.

Modelling conventions:
* A CSV input file is a header (which of the three required columns are
  present; extra columns are ignored by the program) together with its rows.
* `Runtime (s)` values are modelled as rationals; a missing cell (pandas NaN,
  arising when `pd.concat` unions columns across files) is `Option.none`.
* `pd.concat` produces the union of the columns: a row coming from a file
  that lacks a column carries `none` in that column.
* `groupby(['Binary', 'Benchmark File'])` drops rows whose key contains a
  missing value (pandas `dropna=True` default), sorts the group keys
  lexicographically (pandas `sort=True` default), and `.mean()` skips
  missing values (pandas `skipna=True` default), yielding NaN (`none`)
  for a group with no present value.
* Exceptions (`KeyError` on a column absent from the combined frame,
  `ValueError` from `pd.concat` on no files or from `plt.bar` on mismatched
  lengths, `ZeroDivisionError` for `0.8 / 0`) are modelled with `Except`.
-/

namespace BenchmarkPlot

/-- One data row of an input CSV file: the values of the three required
columns `Binary`, `Benchmark File`, `Runtime (s)`. -/
structure Row where
  binary : String
  benchmark : String
  runtime : ℚ
deriving DecidableEq

/-- An input CSV file: which of the three required columns its header has,
and its data rows (a row's field is only meaningful when the column flag
is set). -/
structure CSVFile where
  hasBinary : Bool
  hasBenchmark : Bool
  hasRuntime : Bool
  rows : List Row
deriving DecidableEq

/-- A row of the combined frame produced by `pd.concat`: each cell is
`none` when the originating file lacks that column. -/
structure CRow where
  binary : Option String
  benchmark : Option String
  runtime : Option ℚ
deriving DecidableEq

/-- The contribution of one file to `pd.concat(dfs, ignore_index=True)`:
cells of columns the file lacks become missing values. -/
def toCombined (f : CSVFile) : List CRow :=
  f.rows.map fun r =>
    ⟨if f.hasBinary then some r.binary else none,
     if f.hasBenchmark then some r.benchmark else none,
     if f.hasRuntime then some r.runtime else none⟩

/-- The keys `(Binary, Benchmark File)` of the rows kept by
`groupby(['Binary', 'Benchmark File'])`: rows with a missing key component
are dropped (pandas default `dropna=True`). -/
def keysOf (rows : List CRow) : List (String × String) :=
  rows.filterMap fun r =>
    match r.binary, r.benchmark with
    | some b, some bf => some (b, bf)
    | _, _ => none

/-- Lexicographic comparison of character lists by code point: the order
in which Python compares strings, hence in which pandas sorts string
group keys. -/
def charsLt : List Char → List Char → Bool
  | [], [] => false
  | [], _ :: _ => true
  | _ :: _, [] => false
  | a :: as, b :: bs => if a < b then true else if b < a then false else charsLt as bs

/-- Strict lexicographic order on strings by code point. -/
def strLT (s t : String) : Prop := charsLt s.toList t.toList = true

/-- Non-strict lexicographic order on strings by code point. -/
def strLE (s t : String) : Prop := strLT s t ∨ s = t

instance (s t : String) : Decidable (strLT s t) := by
  unfold strLT; infer_instance

instance (s t : String) : Decidable (strLE s t) := by
  unfold strLE; infer_instance

/-- Non-strict lexicographic order on group keys, the order in which pandas
sorts the groups. -/
def keyLE (a b : String × String) : Prop :=
  strLT a.1 b.1 ∨ (a.1 = b.1 ∧ strLE a.2 b.2)

/-- Strict lexicographic order on group keys. -/
def keyLT (a b : String × String) : Prop :=
  strLT a.1 b.1 ∨ (a.1 = b.1 ∧ strLT a.2 b.2)

instance (a b : String × String) : Decidable (keyLE a b) := by
  unfold keyLE; infer_instance

instance (a b : String × String) : Decidable (keyLT a b) := by
  unfold keyLT; infer_instance

/-- The `Runtime (s)` values present in the group of combined rows whose
key equals `(b, bf)` (missing runtimes are skipped, pandas
`skipna=True`). -/
def groupVals (rows : List CRow) (b bf : String) : List ℚ :=
  (rows.filter fun r =>
    decide (r.binary = some b) && decide (r.benchmark = some bf)).filterMap
    (fun r => r.runtime)

/-- One row of the aggregated frame returned by
`groupby([...])['Runtime (s)'].mean().reset_index()`: a group key and the
mean runtime of the group (`none` models NaN, the mean of a group with no
present value). -/
structure AggRow where
  binary : String
  benchmark : String
  runtime : Option ℚ
deriving DecidableEq

/-- Embeds `combined.groupby(['Binary', 'Benchmark File'])['Runtime (s)'].mean().reset_index()`:
one output row per distinct key, keys sorted lexicographically, value the
mean of the present runtimes of the group. -/
def aggregate (rows : List CRow) : List AggRow :=
  (List.insertionSort keyLE (keysOf rows).dedup).map fun k =>
    let vals := groupVals rows k.1 k.2
    ⟨k.1, k.2, if vals.isEmpty then none else some (vals.sum / (vals.length : ℚ))⟩

/-- Embeds `process_benchmark_data(file_paths)`: concatenate all files and
aggregate.  `pd.concat` of an empty list raises; `groupby` raises a
`KeyError` when the combined frame lacks a key column, i.e. when every
file lacks it; selecting `'Runtime (s)'` raises when every file lacks
that column. -/
def process_benchmark_data (files : List CSVFile) : Except String (List AggRow) :=
  if files.isEmpty then
    .error "ValueError: No objects to concatenate"
  else if files.all fun f => !f.hasBinary then
    .error "KeyError: Binary"
  else if files.all fun f => !f.hasBenchmark then
    .error "KeyError: Benchmark File"
  else if files.all fun f => !f.hasRuntime then
    .error "KeyError: Runtime (s)"
  else
    .ok (aggregate (files.flatMap toCombined))

/-! Derived views of the input used to state the specification. -/

/-- All data rows of all input files, in input order. -/
def allRows (files : List CSVFile) : List Row :=
  files.flatMap (fun f => f.rows)

/-- The group key of an input row. -/
def key (r : Row) : String × String := (r.binary, r.benchmark)

/-- The input rows whose `Binary` and `Benchmark File` fields equal the
given pair. -/
def matchingRows (files : List CSVFile) (b bf : String) : List Row :=
  (allRows files).filter fun r => decide (r.binary = b) && decide (r.benchmark = bf)

/-- A file has all three required columns. -/
def fullColumns (f : CSVFile) : Prop :=
  f.hasBinary = true ∧ f.hasBenchmark = true ∧ f.hasRuntime = true

instance (f : CSVFile) : Decidable (fullColumns f) := by
  unfold fullColumns; infer_instance

/-- The key of an aggregated row. -/
def keyA (r : AggRow) : String × String := (r.binary, r.benchmark)

/-- The distinct `(Binary, Benchmark File)` keys occurring in one file's
rows. -/
def distinctKeys (f : CSVFile) : List (String × String) :=
  (f.rows.map key).dedup

/-! The chart renderer `create_bar_chart`.  Its matplotlib side effects are
embedded as a pure chart description. -/

/-- Embeds `pandas.Series.unique()`: the distinct values in order of first
appearance. -/
def uniqueFirst : List String → List String
  | [] => []
  | x :: xs => x :: (uniqueFirst xs).filter fun y => decide (y ≠ x)

/-- Embeds `pathlib.Path(p).name`: the final path component (directory components
and separators stripped). -/
def pathName (p : String) : String :=
  ((p.splitOn "/").filter fun s => decide (s ≠ "") && decide (s ≠ ".")).getLast?.getD ""

/-- Embeds `pathlib.Path(p).stem`: the final path component with its last
extension removed (a dot that is the first or the last character of the
name does not start an extension). -/
def pathStem (p : String) : String :=
  let n := pathName p
  let cs := n.toList
  match (cs.reverse).findIdx? (fun c => decide (c = '.')) with
  | none => n
  | some j => if 0 < j ∧ j < cs.length - 1 then String.mk (cs.take (cs.length - 1 - j)) else n

/-- One bar drawn by `plt.bar`: its x position, its height (the mean
runtime; `none` models NaN) and its width. -/
structure Bar where
  position : ℚ
  height : Option ℚ
  width : ℚ
deriving DecidableEq

/-- One `plt.bar` call: the bars for one binary, labelled for the
legend. -/
structure Series where
  label : String
  bars : List Bar
deriving DecidableEq

/-- The terminal side effect of `create_bar_chart`: save to a file and
print the path, or open an interactive window. -/
inductive OutputAction where
  | savefig (path : String) (message : String)
  | display
deriving DecidableEq, Inhabited

/-- The chart produced by `create_bar_chart`, as a pure description of the
drawing and output calls made. -/
structure Chart where
  series : List Series
  xtickPositions : List ℕ
  xtickLabels : List String
  legend : List String
  action : OutputAction
deriving DecidableEq, Inhabited

/-- Embeds `np.broadcast_arrays` on the two one-dimensional argument arrays of
`plt.bar`: equal lengths pair up elementwise, a length-one array repeats
against the other, and any other combination raises a `ValueError`
(shape mismatch). -/
def broadcastPairs (xs : List ℚ) (ys : List (Option ℚ)) :
    Option (List (ℚ × Option ℚ)) :=
  if xs.length = ys.length then some (xs.zip ys)
  else
    match xs, ys with
    | [x], _ => some (ys.map fun y => (x, y))
    | _, [y] => some (xs.map fun x => (x, y))
    | _, _ => none

/-- One iteration of the loop: `plt.bar([p + i*bar_width for p in positions],
binary_data['Runtime (s)'], bar_width, label=Path(binary).name)`.
matplotlib broadcasts the positions against the heights and raises
`ValueError` when their lengths are incompatible. -/
def seriesFor (data : List AggRow) (benchmarks : List String) (bar_width : ℚ)
    (i : ℕ) (binary : String) : Except String Series :=
  let binary_data := data.filter fun r => decide (r.binary = binary)
  let positions := (List.range benchmarks.length).map
    fun (p : ℕ) => (p : ℚ) + (i : ℚ) * bar_width
  let heights := binary_data.map fun r => r.runtime
  match broadcastPairs positions heights with
  | none => .error "ValueError: shape mismatch"
  | some pairs => .ok ⟨pathName binary, pairs.map fun ph => ⟨ph.1, ph.2, bar_width⟩⟩

/-- The `for i, binary in enumerate(...)` loop over the distinct
binaries, starting at index `i`. -/
def buildAll (data : List AggRow) (benchmarks : List String) (bar_width : ℚ) :
    ℕ → List String → Except String (List Series)
  | _, [] => .ok []
  | i, b :: bs =>
    match seriesFor data benchmarks bar_width i b with
    | .error e => .error e
    | .ok s =>
      match buildAll data benchmarks bar_width (i + 1) bs with
      | .error e => .error e
      | .ok rest => .ok (s :: rest)

/-- The final step of `create_bar_chart`: `if output_path:` is a Python
truthiness test, true only for a present, nonempty string.  In that case
the program calls `plt.savefig(output_path)` and prints the saved path;
for `None` — and likewise for the falsy empty string — it calls
`plt.show()` instead, writing and printing nothing. -/
def outputActionOf (output_path : Option String) : OutputAction :=
  match output_path with
  | some p => if p = "" then .display else .savefig p ("Chart saved to " ++ p)
  | none => .display

/-- Embeds `create_bar_chart(data, output_path)`: draw one group of bars per
distinct binary (`0.8 / 0` raises `ZeroDivisionError` when there is no
binary), set the x ticks to the benchmark stems, collect the legend, and
either save to `output_path` (printing the saved path) when that path is
truthy, or show the chart. -/
def create_bar_chart (data : List AggRow) (output_path : Option String) :
    Except String Chart :=
  let benchmarks := uniqueFirst (data.map fun r => r.benchmark)
  let binaries := uniqueFirst (data.map fun r => r.binary)
  if binaries.length = 0 then
    .error "ZeroDivisionError: float division by zero"
  else
    let bar_width : ℚ := (4 / 5 : ℚ) / (binaries.length : ℚ)
    match buildAll data benchmarks bar_width 0 binaries with
    | .error e => .error e
    | .ok ss =>
      .ok ⟨ss, List.range benchmarks.length, benchmarks.map pathStem,
        binaries.map pathName, outputActionOf output_path⟩

/-! Basic lemmas about the aggregator on inputs whose files all have the
three required columns. -/

/-- A combined row arising from a file that has all three columns. -/
def liftRow (r : Row) : CRow := ⟨some r.binary, some r.benchmark, some r.runtime⟩

theorem toCombined_full {f : CSVFile} (h : fullColumns f) :
    toCombined f = f.rows.map liftRow := by
  obtain ⟨h1, h2, h3⟩ := h
  simp [toCombined, liftRow, h1, h2, h3]

theorem combined_full {files : List CSVFile} (h : ∀ f ∈ files, fullColumns f) :
    files.flatMap toCombined = (allRows files).map liftRow := by
  induction files with
  | nil => rfl
  | cons f t ih =>
    simp only [List.flatMap_cons, allRows, List.map_append,
      toCombined_full (h f (List.mem_cons_self f t))]
    rw [show t.flatMap toCombined = (allRows t).map liftRow from
      ih fun g hg => h g (List.mem_cons_of_mem f hg)]
    rfl

theorem keysOf_lift (l : List Row) : keysOf (l.map liftRow) = l.map key := by
  induction l with
  | nil => rfl
  | cons r t ih =>
    simp only [List.map_cons, keysOf, List.filterMap_cons, liftRow] at *
    simpa [key] using ih

theorem groupVals_lift (l : List Row) (b bf : String) :
    groupVals (l.map liftRow) b bf =
      (l.filter fun r => decide (r.binary = b) && decide (r.benchmark = bf)).map
        (fun r => r.runtime) := by
  unfold groupVals
  rw [List.filter_map]
  rw [List.filterMap_map]
  have hp : ((fun r : CRow => decide (r.binary = some b) &&
      decide (r.benchmark = some bf)) ∘ liftRow) =
      fun r : Row => decide (r.binary = b) && decide (r.benchmark = bf) := by
    funext r
    simp [liftRow]
  rw [hp]
  have hrt : ((fun r : CRow => r.runtime) ∘ liftRow) =
      fun r : Row => some r.runtime := by
    funext r
    rfl
  rw [hrt]
  exact List.filterMap_eq_map (fun r : Row => r.runtime) ▸ rfl

/-- With every file fully columned and at least one file, processing
succeeds and returns the per-key means of the matching input rows, keys
sorted. -/
theorem process_full {files : List CSVFile} (hne : files ≠ [])
    (hfull : ∀ f ∈ files, fullColumns f) :
    process_benchmark_data files =
      .ok ((List.insertionSort keyLE ((allRows files).map key).dedup).map fun k =>
        let ms := matchingRows files k.1 k.2
        ⟨k.1, k.2, if ms.isEmpty then none
          else some ((ms.map fun r => r.runtime).sum / (ms.length : ℚ))⟩) := by
  obtain ⟨f₀, hf₀⟩ := List.exists_mem_of_ne_nil files hne
  have hE : files.isEmpty = false := by
    simpa [List.isEmpty_iff] using hne
  have hB : (files.all fun f => !f.hasBinary) = false := by
    simp only [List.all_eq_false]
    exact ⟨f₀, hf₀, by simp [(hfull f₀ hf₀).1]⟩
  have hBF : (files.all fun f => !f.hasBenchmark) = false := by
    simp only [List.all_eq_false]
    exact ⟨f₀, hf₀, by simp [(hfull f₀ hf₀).2.1]⟩
  have hR : (files.all fun f => !f.hasRuntime) = false := by
    simp only [List.all_eq_false]
    exact ⟨f₀, hf₀, by simp [(hfull f₀ hf₀).2.2]⟩
  unfold process_benchmark_data
  rw [hE, hB, hBF, hR]
  simp only [Bool.false_eq_true, if_false]
  congr 1
  unfold aggregate
  rw [combined_full hfull, keysOf_lift]
  refine List.map_congr_left fun k _ => ?_
  have hv := groupVals_lift (allRows files) k.1 k.2
  simp only [hv]
  unfold matchingRows
  simp only [List.isEmpty_eq_true, List.map_eq_nil_iff, List.length_map]

theorem charsLt_irrefl (s : List Char) : charsLt s s = false := by
  induction s with
  | nil => rfl
  | cons a as ih => simp [charsLt, ih]

theorem charsLt_trans : ∀ {s t u : List Char},
    charsLt s t = true → charsLt t u = true → charsLt s u = true
  | [], [], _, h1, _ => by simp [charsLt] at h1
  | [], _ :: _, [], _, h2 => by simp [charsLt] at h2
  | [], _ :: _, _ :: _, _, _ => rfl
  | _ :: _, [], _, h1, _ => by simp [charsLt] at h1
  | _ :: _, _ :: _, [], _, h2 => by simp [charsLt] at h2
  | a :: as, b :: bs, c :: cs, h1, h2 => by
    simp only [charsLt] at h1 h2 ⊢
    by_cases hab : a < b
    · by_cases hbc : b < c
      · simp [lt_trans hab hbc]
      · by_cases hcb : c < b
        · simp [hbc, hcb] at h2
        · have hbceq : b = c := le_antisymm (not_lt.mp hcb) (not_lt.mp hbc)
          simp [hbceq ▸ hab]
    · by_cases hba : b < a
      · simp [hab, hba] at h1
      · have habeq : a = b := le_antisymm (not_lt.mp hba) (not_lt.mp hab)
        subst habeq
        by_cases hac : a < c
        · simp [hac]
        · by_cases hca : c < a
          · simp [hac, hca] at h2
          · have haceq : a = c := le_antisymm (not_lt.mp hca) (not_lt.mp hac)
            subst haceq
            simp [hab, lt_irrefl] at h1 h2 ⊢
            exact charsLt_trans h1 h2

theorem charsLt_trichotomy : ∀ s t : List Char,
    charsLt s t = true ∨ s = t ∨ charsLt t s = true
  | [], [] => Or.inr (Or.inl rfl)
  | [], _ :: _ => Or.inl rfl
  | _ :: _, [] => Or.inr (Or.inr rfl)
  | a :: as, b :: bs => by
    rcases lt_trichotomy a b with h | h | h
    · exact Or.inl (by simp [charsLt, h])
    · subst h
      rcases charsLt_trichotomy as bs with h2 | h2 | h2
      · exact Or.inl (by simp [charsLt, lt_irrefl, h2])
      · exact Or.inr (Or.inl (by rw [h2]))
      · exact Or.inr (Or.inr (by simp [charsLt, lt_irrefl, h2]))
    · exact Or.inr (Or.inr (by simp [charsLt, h, lt_asymm h]))

theorem strLT_irrefl (s : String) : ¬ strLT s s := by
  simp [strLT, charsLt_irrefl]

theorem strLT_trans {s t u : String} (h1 : strLT s t) (h2 : strLT t u) : strLT s u :=
  charsLt_trans h1 h2

theorem strLT_asymm {s t : String} (h1 : strLT s t) : ¬ strLT t s :=
  fun h2 => strLT_irrefl s (strLT_trans h1 h2)

theorem string_toList_inj {s t : String} (h : s.toList = t.toList) : s = t := by
  cases s
  cases t
  exact congrArg String.mk (by simpa [String.toList] using h)

theorem strLT_trichotomy (s t : String) : strLT s t ∨ s = t ∨ strLT t s := by
  rcases charsLt_trichotomy s.toList t.toList with h | h | h
  · exact Or.inl h
  · exact Or.inr (Or.inl (string_toList_inj h))
  · exact Or.inr (Or.inr h)

theorem strLE_refl (s : String) : strLE s s := Or.inr rfl

theorem strLE_total (s t : String) : strLE s t ∨ strLE t s := by
  rcases strLT_trichotomy s t with h | h | h
  · exact Or.inl (Or.inl h)
  · exact Or.inl (Or.inr h)
  · exact Or.inr (Or.inl h)

theorem strLE_trans {s t u : String} (h1 : strLE s t) (h2 : strLE t u) : strLE s u := by
  rcases h1 with h1 | rfl
  · rcases h2 with h2 | rfl
    · exact Or.inl (strLT_trans h1 h2)
    · exact Or.inl h1
  · exact h2

theorem strLE_antisymm {s t : String} (h1 : strLE s t) (h2 : strLE t s) : s = t := by
  rcases h1 with h1 | rfl
  · rcases h2 with h2 | rfl
    · exact absurd h2 (strLT_asymm h1)
    · rfl
  · rfl

theorem strLT_of_strLE_ne {s t : String} (h : strLE s t) (hne : s ≠ t) : strLT s t := by
  rcases h with h | rfl
  · exact h
  · exact absurd rfl hne

instance : IsTotal (String × String) keyLE := by
  constructor
  intro a b
  rcases strLT_trichotomy a.1 b.1 with h | h | h
  · exact Or.inl (Or.inl h)
  · rcases strLE_total a.2 b.2 with h2 | h2
    · exact Or.inl (Or.inr ⟨h, h2⟩)
    · exact Or.inr (Or.inr ⟨h.symm, h2⟩)
  · exact Or.inr (Or.inl h)

instance : IsTrans (String × String) keyLE := by
  constructor
  rintro a b c (hab | ⟨hab, hab2⟩) (hbc | ⟨hbc, hbc2⟩)
  · exact Or.inl (strLT_trans hab hbc)
  · exact Or.inl (hbc ▸ hab)
  · exact Or.inl (hab ▸ hbc)
  · exact Or.inr ⟨hab.trans hbc, strLE_trans hab2 hbc2⟩

instance : IsAntisymm (String × String) keyLE := by
  constructor
  rintro ⟨a1, a2⟩ ⟨b1, b2⟩ (hab | ⟨hab, hab2⟩) (hba | ⟨hba, hba2⟩)
  · exact absurd hba (strLT_asymm hab)
  · exact absurd (hba ▸ hab) (strLT_irrefl _)
  · exact absurd (hab ▸ hba) (strLT_irrefl _)
  · exact Prod.ext hab (strLE_antisymm hab2 hba2)

theorem keyLT_of_keyLE_ne {a b : String × String} (h : keyLE a b) (hne : a ≠ b) :
    keyLT a b := by
  rcases h with h | ⟨h1, h2⟩
  · exact Or.inl h
  · refine Or.inr ⟨h1, strLT_of_strLE_ne h2 fun h2e => hne ?_⟩
    exact Prod.ext h1 h2e

theorem mem_sortKeys {k : String × String} {l : List (String × String)} :
    k ∈ List.insertionSort keyLE l.dedup ↔ k ∈ l := by
  rw [(List.perm_insertionSort keyLE l.dedup).mem_iff, List.mem_dedup]

theorem nodup_sortKeys (l : List (String × String)) :
    (List.insertionSort keyLE l.dedup).Nodup :=
  (List.perm_insertionSort keyLE l.dedup).nodup_iff.mpr (List.nodup_dedup l)

theorem sorted_sortKeys (l : List (String × String)) :
    (List.insertionSort keyLE l.dedup).Pairwise keyLT :=
  (((List.sorted_insertionSort keyLE l.dedup).and
    ((nodup_sortKeys l))).imp fun h => keyLT_of_keyLE_ne h.1 h.2)

/-- Whenever processing succeeds, its value is the aggregate of the
combined rows. -/
theorem process_ok_eq {files : List CSVFile} {result : List AggRow}
    (hok : process_benchmark_data files = .ok result) :
    result = aggregate (files.flatMap toCombined) := by
  unfold process_benchmark_data at hok
  split at hok
  · exact absurd hok (by simp)
  split at hok
  · exact absurd hok (by simp)
  split at hok
  · exact absurd hok (by simp)
  split at hok
  · exact absurd hok (by simp)
  exact (Except.ok.injEq _ _ ▸ hok).symm

/-- The key sequence of the aggregated frame is the sorted deduplication
of the keys of the combined rows. -/
theorem aggregate_keys (rows : List CRow) :
    (aggregate rows).map keyA = List.insertionSort keyLE (keysOf rows).dedup := by
  simp [aggregate, List.map_map, keyA, Function.comp_def, Prod.mk.eta]

theorem mem_matchingRows {files : List CSVFile} {b bf : String} {r : Row} :
    r ∈ matchingRows files b bf ↔ r ∈ allRows files ∧ r.binary = b ∧ r.benchmark = bf := by
  simp [matchingRows, List.mem_filter]

/-- C1: for every collection of input CSV rows (every nonempty list of
fully-columned files), the aggregated result maps each
`(Binary, Benchmark File)` pair to exactly the arithmetic mean (sum
divided by count) of the `Runtime (s)` values of precisely those input
rows whose `Binary` and `Benchmark File` fields equal that pair: every
output row carries that mean, and a pair occurs in the output exactly
when some input row has it. -/
theorem C1_mean_of_matching_rows (files : List CSVFile) (result : List AggRow)
    (hne : files ≠ []) (hfull : ∀ f ∈ files, fullColumns f)
    (hok : process_benchmark_data files = .ok result) :
    (∀ row ∈ result,
      row.runtime = some
        (((matchingRows files row.binary row.benchmark).map fun r => r.runtime).sum /
          ((matchingRows files row.binary row.benchmark).length : ℚ)))
    ∧ (∀ b bf : String,
        (∃ row ∈ result, row.binary = b ∧ row.benchmark = bf) ↔
        (∃ r ∈ allRows files, r.binary = b ∧ r.benchmark = bf)) := by
  rw [process_full hne hfull] at hok
  obtain rfl := (Except.ok.inj hok).symm
  constructor
  · intro row hrow
    obtain ⟨k, hk, rfl⟩ := List.mem_map.mp hrow
    obtain ⟨r, hr, hkey⟩ := List.mem_map.mp (mem_sortKeys.mp hk)
    have hrm : r ∈ matchingRows files k.1 k.2 :=
      mem_matchingRows.mpr ⟨hr, congrArg Prod.fst hkey, congrArg Prod.snd hkey⟩
    have hms : (matchingRows files k.1 k.2).isEmpty = false := by
      simp only [List.isEmpty_eq_false]
      exact List.ne_nil_of_mem hrm
    show (if (matchingRows files k.1 k.2).isEmpty then none
      else some (((matchingRows files k.1 k.2).map fun r => r.runtime).sum /
        ((matchingRows files k.1 k.2).length : ℚ))) = _
    rw [hms]
    rfl
  · intro b bf
    constructor
    · rintro ⟨row, hrow, hb, hbf⟩
      obtain ⟨k, hk, rfl⟩ := List.mem_map.mp hrow
      obtain ⟨r, hr, hkey⟩ := List.mem_map.mp (mem_sortKeys.mp hk)
      refine ⟨r, hr, ?_, ?_⟩
      · exact (congrArg Prod.fst hkey).trans hb
      · exact (congrArg Prod.snd hkey).trans hbf
    · rintro ⟨r, hr, hb, hbf⟩
      have hk : (b, bf) ∈ ((allRows files).map key).dedup.insertionSort keyLE :=
        mem_sortKeys.mpr (List.mem_map.mpr ⟨r, hr, by simp [key, hb, hbf]⟩)
      exact ⟨_, List.mem_map.mpr ⟨(b, bf), hk, rfl⟩, rfl, rfl⟩

/-- C1 witness: the spec example, two rows `(bin1, b1.lox, 1.0)` and
`(bin1, b1.lox, 3.0)` in one file, where the conclusion of C1 holds. -/
theorem C1_mean_of_matching_rows_witness :
    (∀ row ∈ aggregate (([⟨true, true, true,
        [⟨"bin1", "b1.lox", 1⟩, ⟨"bin1", "b1.lox", 3⟩]⟩] : List CSVFile).flatMap toCombined),
      row.runtime = some
        (((matchingRows [⟨true, true, true,
            [⟨"bin1", "b1.lox", 1⟩, ⟨"bin1", "b1.lox", 3⟩]⟩] row.binary row.benchmark).map
              fun r => r.runtime).sum /
          ((matchingRows [⟨true, true, true,
            [⟨"bin1", "b1.lox", 1⟩, ⟨"bin1", "b1.lox", 3⟩]⟩] row.binary row.benchmark).length : ℚ)))
    ∧ (∀ b bf : String,
        (∃ row ∈ aggregate (([⟨true, true, true,
            [⟨"bin1", "b1.lox", 1⟩, ⟨"bin1", "b1.lox", 3⟩]⟩] : List CSVFile).flatMap toCombined),
          row.binary = b ∧ row.benchmark = bf) ↔
        (∃ r ∈ allRows [⟨true, true, true, [⟨"bin1", "b1.lox", 1⟩, ⟨"bin1", "b1.lox", 3⟩]⟩],
          r.binary = b ∧ r.benchmark = bf)) :=
  C1_mean_of_matching_rows _ _ (by decide)
    (by intro f hf; simp only [List.mem_singleton] at hf; subst hf; exact ⟨rfl, rfl, rfl⟩)
    rfl

/-- C3: a `(Binary, Benchmark File)` pair whose group contains exactly
one input row is mapped to that row's runtime unchanged. -/
theorem C3_singleton_group_identity (files : List CSVFile) (result : List AggRow)
    (hne : files ≠ []) (hfull : ∀ f ∈ files, fullColumns f)
    (hok : process_benchmark_data files = .ok result)
    (b bf : String) (r : Row) (hone : matchingRows files b bf = [r]) :
    ∃ row ∈ result, row.binary = b ∧ row.benchmark = bf ∧ row.runtime = some r.runtime := by
  rw [process_full hne hfull] at hok
  obtain rfl := (Except.ok.inj hok).symm
  have hr : r ∈ matchingRows files b bf := by rw [hone]; exact List.mem_singleton_self r
  obtain ⟨hmem, hrb, hrbf⟩ := mem_matchingRows.mp hr
  have hk : (b, bf) ∈ ((allRows files).map key).dedup.insertionSort keyLE :=
    mem_sortKeys.mpr (List.mem_map.mpr ⟨r, hmem, by simp [key, hrb, hrbf]⟩)
  refine ⟨_, List.mem_map.mpr ⟨(b, bf), hk, rfl⟩, rfl, rfl, ?_⟩
  show (if (matchingRows files b bf).isEmpty then none
    else some (((matchingRows files b bf).map fun r => r.runtime).sum /
      ((matchingRows files b bf).length : ℚ))) = some r.runtime
  rw [hone]
  norm_num

/-- C3 witness: one file whose single row for `(bin1, b1.lox)` has
runtime `5`; the aggregated row for that pair carries `5`. -/
theorem C3_singleton_group_identity_witness :
    ∃ row ∈ aggregate (([⟨true, true, true,
        [⟨"bin1", "b1.lox", 5⟩]⟩] : List CSVFile).flatMap toCombined),
      row.binary = "bin1" ∧ row.benchmark = "b1.lox" ∧ row.runtime = some 5 :=
  C3_singleton_group_identity
    [⟨true, true, true, [⟨"bin1", "b1.lox", 5⟩]⟩] _ (by decide)
    (by intro f hf; simp only [List.mem_singleton] at hf; subst hf; exact ⟨rfl, rfl, rfl⟩)
    rfl "bin1" "b1.lox" ⟨"bin1", "b1.lox", 5⟩ (by decide)

/-- C5: the aggregated table has unique keys: no two rows of any
successful result share the same `(Binary, Benchmark File)` pair. -/
theorem C5_keys_nodup (files : List CSVFile) (result : List AggRow)
    (hok : process_benchmark_data files = .ok result) :
    (result.map keyA).Nodup := by
  rw [process_ok_eq hok, aggregate_keys]
  exact nodup_sortKeys _

/-- C5 witness: concrete input with a duplicated key; the aggregated key
list is duplicate-free. -/
theorem C5_keys_nodup_witness :
    (((process_benchmark_data
        [⟨true, true, true, [⟨"a", "x", 1⟩, ⟨"a", "x", 2⟩, ⟨"b", "x", 3⟩]⟩]).toOption.getD
        []).map keyA).Nodup :=
  C5_keys_nodup [⟨true, true, true, [⟨"a", "x", 1⟩, ⟨"a", "x", 2⟩, ⟨"b", "x", 3⟩]⟩]
    ((process_benchmark_data
      [⟨true, true, true, [⟨"a", "x", 1⟩, ⟨"a", "x", 2⟩, ⟨"b", "x", 3⟩]⟩]).toOption.getD [])
    (by rfl)

theorem dedup_length_eq_card {α : Type} [DecidableEq α] (l : List α) :
    l.dedup.length = l.toFinset.card := by
  rw [← List.toFinset_card_of_nodup (List.nodup_dedup l)]
  congr 1
  ext a
  simp [List.mem_toFinset, List.mem_dedup]

/-- C4: for two files with all columns and disjoint key sets, the
aggregated result of processing both has as many rows as the two files
have distinct keys together. -/
theorem C4_disjoint_key_count (A B : CSVFile) (result : List AggRow)
    (hfA : fullColumns A) (hfB : fullColumns B)
    (hdisj : ∀ k, k ∈ distinctKeys A → k ∉ distinctKeys B)
    (hok : process_benchmark_data [A, B] = .ok result) :
    result.length = (distinctKeys A).length + (distinctKeys B).length := by
  rw [process_full (by simp) (by
    intro f hf
    simp only [List.mem_cons, List.not_mem_nil, or_false] at hf
    rcases hf with rfl | rfl
    · exact hfA
    · exact hfB)] at hok
  obtain rfl := (Except.ok.inj hok).symm
  rw [List.length_map, List.length_insertionSort]
  have hall : allRows [A, B] = A.rows ++ B.rows := by
    simp [allRows]
  rw [hall, List.map_append, dedup_length_eq_card, List.toFinset_append]
  have hdisjF : Disjoint (A.rows.map key).toFinset (B.rows.map key).toFinset := by
    rw [Finset.disjoint_left]
    intro k hk1 hk2
    exact hdisj k (List.mem_dedup.mpr (List.mem_toFinset.mp hk1))
      (List.mem_dedup.mpr (List.mem_toFinset.mp hk2))
  rw [Finset.card_union_of_disjoint hdisjF]
  unfold distinctKeys
  rw [dedup_length_eq_card, dedup_length_eq_card]

/-- C4 witness: two one-row files with different keys; the aggregated
result has `1 + 1` rows. -/
theorem C4_disjoint_key_count_witness :
    (aggregate (([⟨true, true, true, [⟨"bin1", "x.lox", 1⟩]⟩,
        ⟨true, true, true, [⟨"bin2", "y.lox", 2⟩]⟩] : List CSVFile).flatMap toCombined)).length =
      (distinctKeys ⟨true, true, true, [⟨"bin1", "x.lox", 1⟩]⟩).length +
      (distinctKeys ⟨true, true, true, [⟨"bin2", "y.lox", 2⟩]⟩).length :=
  C4_disjoint_key_count ⟨true, true, true, [⟨"bin1", "x.lox", 1⟩]⟩
    ⟨true, true, true, [⟨"bin2", "y.lox", 2⟩]⟩ _
    (by decide) (by decide) (by decide) rfl

/-- C2 counterexample: the second input file lacks the `Runtime (s)`
column, yet the run does not fail: processing succeeds (the file's rows
merely contribute missing values to their groups) and a chart is
rendered from the partial result. -/
theorem C2_missing_column_cex :
    (([(⟨true, true, true, [⟨"a", "b", 1⟩, ⟨"c", "b", 2⟩]⟩ : CSVFile),
        ⟨true, true, false, [⟨"a", "b", 9⟩]⟩].any fun f => !f.hasRuntime) = true)
    ∧ (process_benchmark_data [⟨true, true, true, [⟨"a", "b", 1⟩, ⟨"c", "b", 2⟩]⟩,
        ⟨true, true, false, [⟨"a", "b", 9⟩]⟩]).isOk = true
    ∧ (create_bar_chart
        ((process_benchmark_data [⟨true, true, true, [⟨"a", "b", 1⟩, ⟨"c", "b", 2⟩]⟩,
          ⟨true, true, false, [⟨"a", "b", 9⟩]⟩]).toOption.getD [])
        (some "chart.png")).isOk = true :=
  ⟨by decide, rfl, rfl⟩

/-- C2 amended: the run fails during aggregation precisely when a
required column is missing from the combined table, i.e. from every
input file; when at least one file has each required column, processing
succeeds even if other files lack columns (their rows contribute
missing values). -/
theorem C2_missing_column_iff_failure (files : List CSVFile) (hne : files ≠ []) :
    (process_benchmark_data files).isOk = false ↔
      ((files.all fun f => !f.hasBinary) = true ∨
       (files.all fun f => !f.hasBenchmark) = true ∨
       (files.all fun f => !f.hasRuntime) = true) := by
  have hE : files.isEmpty = false := by
    simpa [List.isEmpty_iff] using hne
  unfold process_benchmark_data
  rw [hE]
  simp only [Bool.false_eq_true, if_false]
  split_ifs with h1 h2 h3
  · simp [Except.isOk, Except.toBool, h1]
  · simp [Except.isOk, Except.toBool, h2]
  · simp [Except.isOk, Except.toBool, h3]
  · simp [Except.isOk, Except.toBool, h1, h2, h3]

/-- C2 amended witness: a single file lacking `Runtime (s)` makes the
run fail. -/
theorem C2_missing_column_iff_failure_witness :
    ([(⟨true, true, false, [⟨"a", "b", 1⟩]⟩ : CSVFile)] ≠ [])
    ∧ (process_benchmark_data [⟨true, true, false, [⟨"a", "b", 1⟩]⟩]).isOk = false :=
  ⟨by decide, (C2_missing_column_iff_failure _ (by decide)).mpr (by decide)⟩

/-- C10: the rows of any successful aggregated result are sorted in
strictly ascending lexicographic order of the key `(Binary, Benchmark
File)`; consequently the output key sequence is a deterministic function
of the set of keys of the combined input alone, regardless of row or
file order. -/
theorem C10_sorted_deterministic (files files' : List CSVFile)
    (result result' : List AggRow)
    (hok : process_benchmark_data files = .ok result)
    (hok' : process_benchmark_data files' = .ok result') :
    (result.map keyA).Pairwise keyLT ∧
    ((keysOf (files.flatMap toCombined)).toFinset =
        (keysOf (files'.flatMap toCombined)).toFinset →
      result.map keyA = result'.map keyA) := by
  have h1 : result.map keyA =
      List.insertionSort keyLE (keysOf (files.flatMap toCombined)).dedup := by
    rw [process_ok_eq hok, aggregate_keys]
  have h1' : result'.map keyA =
      List.insertionSort keyLE (keysOf (files'.flatMap toCombined)).dedup := by
    rw [process_ok_eq hok', aggregate_keys]
  constructor
  · rw [h1]
    exact sorted_sortKeys _
  · intro hset
    rw [h1, h1']
    refine List.eq_of_perm_of_sorted ?_ (List.sorted_insertionSort _ _)
      (List.sorted_insertionSort _ _)
    refine (List.perm_ext_iff_of_nodup (nodup_sortKeys _) (nodup_sortKeys _)).mpr ?_
    intro k
    rw [mem_sortKeys, mem_sortKeys, ← List.mem_toFinset, hset, List.mem_toFinset]

/-- C10 witness: the same two keys arriving in opposite orders and file
splits produce identically ordered results. -/
theorem C10_sorted_deterministic_witness :
    ((aggregate (([⟨true, true, true,
        [⟨"b", "y", 1⟩, ⟨"a", "x", 2⟩]⟩] : List CSVFile).flatMap toCombined)).map keyA).Pairwise
      keyLT ∧
    ((keysOf (([⟨true, true, true,
        [⟨"b", "y", 1⟩, ⟨"a", "x", 2⟩]⟩] : List CSVFile).flatMap toCombined)).toFinset =
      (keysOf (([⟨true, true, true, [⟨"a", "x", 5⟩]⟩,
        ⟨true, true, true, [⟨"b", "y", 7⟩]⟩] : List CSVFile).flatMap toCombined)).toFinset →
      (aggregate (([⟨true, true, true,
        [⟨"b", "y", 1⟩, ⟨"a", "x", 2⟩]⟩] : List CSVFile).flatMap toCombined)).map keyA =
      (aggregate (([⟨true, true, true, [⟨"a", "x", 5⟩]⟩,
        ⟨true, true, true, [⟨"b", "y", 7⟩]⟩] : List CSVFile).flatMap toCombined)).map keyA) :=
  C10_sorted_deterministic _ _ _ _ rfl rfl

/-- Destructuring a successful run of the renderer. -/
theorem create_bar_chart_ok {data : List AggRow} {op : Option String} {chart : Chart}
    (h : create_bar_chart data op = .ok chart) :
    (uniqueFirst (data.map fun r => r.binary)).length ≠ 0 ∧
    ∃ ss, buildAll data (uniqueFirst (data.map fun r => r.benchmark))
        ((4 / 5 : ℚ) / ((uniqueFirst (data.map fun r => r.binary)).length : ℚ)) 0
        (uniqueFirst (data.map fun r => r.binary)) = .ok ss ∧
      chart = ⟨ss, List.range (uniqueFirst (data.map fun r => r.benchmark)).length,
        (uniqueFirst (data.map fun r => r.benchmark)).map pathStem,
        (uniqueFirst (data.map fun r => r.binary)).map pathName,
        outputActionOf op⟩ := by
  simp only [create_bar_chart] at h
  split at h
  · exact absurd h (by simp)
  next hlen =>
    split at h
    · exact absurd h (by simp)
    next ss hss => exact ⟨hlen, ss, hss, (Except.ok.inj h).symm⟩

/-- Destructuring one successful `plt.bar` call: whatever broadcasting
produced, every bar carries the common width. -/
theorem seriesFor_ok_bars {data : List AggRow} {benchmarks : List String} {bw : ℚ}
    {i : ℕ} {bnry : String} {s : Series}
    (h : seriesFor data benchmarks bw i bnry = .ok s) :
    ∃ pairs : List (ℚ × Option ℚ),
      s = ⟨pathName bnry, pairs.map fun ph => Bar.mk ph.1 ph.2 bw⟩ := by
  simp only [seriesFor] at h
  split at h
  · exact absurd h (by simp)
  next pairs hp => exact ⟨pairs, (Except.ok.inj h).symm⟩

/-- When the group of a binary has exactly one row per benchmark, no
broadcasting occurs: the bars pair the offset positions with the group's
heights in order. -/
theorem seriesFor_of_length_eq {data : List AggRow} {benchmarks : List String}
    {bw : ℚ} {i : ℕ} {bnry : String}
    (h : (data.filter fun r => decide (r.binary = bnry)).length = benchmarks.length) :
    seriesFor data benchmarks bw i bnry = .ok (Series.mk (pathName bnry)
      (List.map (fun ph => Bar.mk ph.1 ph.2 bw)
        (List.zip
          (List.map (fun (p : ℕ) => (p : ℚ) + (i : ℚ) * bw)
            (List.range benchmarks.length))
          (List.map (fun r => r.runtime)
            (data.filter fun r => decide (r.binary = bnry)))))) := by
  have hlen : (List.map (fun (p : ℕ) => (p : ℚ) + (i : ℚ) * bw)
      (List.range benchmarks.length)).length =
      (List.map (fun r => r.runtime)
        (data.filter fun r => decide (r.binary = bnry))).length := by
    rw [List.length_map, List.length_range, List.length_map, h]
  simp only [seriesFor, broadcastPairs, hlen, if_pos]

theorem buildAll_ok_width {data : List AggRow} {benchmarks : List String} {bw : ℚ} :
    ∀ {i : ℕ} {bs : List String} {ss : List Series},
      buildAll data benchmarks bw i bs = .ok ss →
      ∀ s ∈ ss, ∀ b ∈ s.bars, b.width = bw := by
  intro i bs
  induction bs generalizing i with
  | nil =>
    intro ss h s hs
    simp only [buildAll] at h
    obtain rfl := (Except.ok.inj h).symm
    exact absurd hs (List.not_mem_nil s)
  | cons bnry bs ih =>
    intro ss h s hs b hb
    simp only [buildAll] at h
    split at h
    · exact absurd h (by simp)
    next s₀ hs₀ =>
      split at h
      · exact absurd h (by simp)
      next rest hrest =>
        obtain rfl := (Except.ok.inj h).symm
        rcases List.mem_cons.mp hs with rfl | hs
        · obtain ⟨pairs, rfl⟩ := seriesFor_ok_bars hs₀
          obtain ⟨pr, -, rfl⟩ := List.mem_map.mp hb
          rfl
        · exact ih hrest s hs b hb

/-- C6: every bar drawn by a successful `create_bar_chart` has width
`0.8` divided by the number of distinct binaries in the table. -/
theorem C6_bar_width (data : List AggRow) (op : Option String) (chart : Chart)
    (hok : create_bar_chart data op = .ok chart) :
    ∀ s ∈ chart.series, ∀ b ∈ s.bars,
      b.width = (4 / 5 : ℚ) / ((uniqueFirst (data.map fun r => r.binary)).length : ℚ) := by
  obtain ⟨-, ss, hss, rfl⟩ := create_bar_chart_ok hok
  exact buildAll_ok_width hss

/-- C6 witness: a one-row table; every bar of the resulting chart has
width `0.8 / 1`. -/
theorem C6_bar_width_witness :
    ∃ chart : Chart,
      create_bar_chart [⟨"bin1", "b1.lox", some 1⟩] (some "out.png") = .ok chart ∧
      ∀ s ∈ chart.series, ∀ b ∈ s.bars,
        b.width = (4 / 5 : ℚ) /
          ((uniqueFirst ([(⟨"bin1", "b1.lox", some 1⟩ : AggRow)].map
            fun r => r.binary)).length : ℚ) :=
  ⟨_, rfl, C6_bar_width [⟨"bin1", "b1.lox", some 1⟩] (some "out.png") _ rfl⟩

/-- C8 counterexample: an output path is given — the reachable empty
string, as in `--output ""` — yet `if output_path:` is falsy, so the
renderer succeeds, opens the interactive display, and writes no file at
that path and reports nothing, refuting the claim as stated. -/
theorem C8_output_action_cex :
    (create_bar_chart [⟨"bin1", "b1.lox", some 1⟩] (some "")).isOk = true ∧
    ((create_bar_chart [⟨"bin1", "b1.lox", some 1⟩]
        (some "")).toOption.getD default).action = OutputAction.display :=
  ⟨rfl, rfl⟩

/-- C8, amended: a successful `create_bar_chart` saves the figure to the
given path and reports exactly that path when a nonempty path is given,
and opens the interactive display (writing no file) when no path — or
the falsy empty path — is given. -/
theorem C8_output_action (data : List AggRow) (op : Option String) (chart : Chart)
    (hok : create_bar_chart data op = .ok chart) :
    (∀ p, op = some p → p ≠ "" →
      chart.action = .savefig p ("Chart saved to " ++ p)) ∧
    (op = none ∨ op = some "" → chart.action = .display) := by
  obtain ⟨-, ss, -, rfl⟩ := create_bar_chart_ok hok
  constructor
  · rintro p rfl hp
    simp only [outputActionOf, if_neg hp]
  · rintro (rfl | rfl)
    · rfl
    · rfl

/-- C8 witness: with the nonempty output path `out.png` the action is
`savefig` of exactly that path. -/
theorem C8_output_action_witness :
    ∃ chart : Chart,
      create_bar_chart [⟨"bin1", "b1.lox", some 1⟩] (some "out.png") = .ok chart ∧
      (∀ p, (some "out.png" : Option String) = some p → p ≠ "" →
        chart.action = .savefig p ("Chart saved to " ++ p)) ∧
      ((some "out.png" : Option String) = none ∨
          (some "out.png" : Option String) = some "" →
        chart.action = .display) :=
  ⟨_, rfl, C8_output_action [⟨"bin1", "b1.lox", some 1⟩] (some "out.png") _ rfl⟩

/-- C9: a successful `create_bar_chart` labels the x ticks with the
benchmark file names with extension removed, and the legend with the
binary file names with directories stripped. -/
theorem C9_tick_and_legend_labels (data : List AggRow) (op : Option String)
    (chart : Chart) (hok : create_bar_chart data op = .ok chart) :
    chart.xtickLabels = (uniqueFirst (data.map fun r => r.benchmark)).map pathStem ∧
    chart.legend = (uniqueFirst (data.map fun r => r.binary)).map pathName := by
  obtain ⟨-, ss, -, rfl⟩ := create_bar_chart_ok hok
  exact ⟨rfl, rfl⟩

/-- C9 witness: applied to a concrete one-row table. -/
theorem C9_tick_and_legend_labels_witness :
    ((create_bar_chart [⟨"target/bin1", "benches/b1.lox", some 1⟩]
        none).toOption.getD default).xtickLabels =
      (uniqueFirst ([(⟨"target/bin1", "benches/b1.lox", some 1⟩ : AggRow)].map
        fun r => r.benchmark)).map pathStem ∧
    ((create_bar_chart [⟨"target/bin1", "benches/b1.lox", some 1⟩]
        none).toOption.getD default).legend =
      (uniqueFirst ([(⟨"target/bin1", "benches/b1.lox", some 1⟩ : AggRow)].map
        fun r => r.binary)).map pathName :=
  C9_tick_and_legend_labels [⟨"target/bin1", "benches/b1.lox", some 1⟩] none _ rfl

/-! Machinery for the bar-alignment claim: properties of `uniqueFirst`,
of the sorted key sequence, and of the block structure of an aggregated
table in which every binary covers every benchmark. -/

theorem mem_uniqueFirst {a : String} : ∀ {l : List String}, a ∈ uniqueFirst l ↔ a ∈ l := by
  intro l
  induction l with
  | nil => simp [uniqueFirst]
  | cons x xs ih =>
    by_cases hax : a = x
    · subst hax
      simp [uniqueFirst]
    · simp only [uniqueFirst, List.mem_cons, List.mem_filter, ih, decide_eq_true_eq]
      constructor
      · rintro (rfl | ⟨h, -⟩)
        · exact Or.inl rfl
        · exact Or.inr h
      · rintro (rfl | h)
        · exact Or.inl rfl
        · exact Or.inr ⟨h, hax⟩

theorem nodup_uniqueFirst : ∀ (l : List String), (uniqueFirst l).Nodup := by
  intro l
  induction l with
  | nil => exact List.nodup_nil
  | cons x xs ih =>
    refine List.Pairwise.cons ?_ (ih.filter _)
    intro y hy
    have := (List.mem_filter.mp hy).2
    simp only [decide_eq_true_eq] at this
    exact fun hxy => this hxy.symm

theorem uniqueFirst_sublist : ∀ (l : List String), (uniqueFirst l).Sublist l := by
  intro l
  induction l with
  | nil => exact List.Sublist.refl []
  | cons x xs ih =>
    exact List.Sublist.cons₂ x (((uniqueFirst xs).filter_sublist).trans ih)

theorem uniqueFirst_of_nodup : ∀ {l : List String}, l.Nodup → uniqueFirst l = l := by
  intro l
  induction l with
  | nil => intro; rfl
  | cons x xs ih =>
    intro hnd
    rw [List.nodup_cons] at hnd
    simp only [uniqueFirst, ih hnd.2]
    rw [List.filter_eq_self.mpr]
    intro a ha
    simp only [decide_eq_true_eq]
    exact fun h => hnd.1 (h ▸ ha)

theorem uniqueFirst_filter (p : String → Bool) :
    ∀ (l : List String), (uniqueFirst l).filter p = uniqueFirst (l.filter p) := by
  intro l
  induction l with
  | nil => rfl
  | cons x xs ih =>
    by_cases hx : p x = true
    · simp only [uniqueFirst, List.filter_cons, hx, if_true]
      rw [List.filter_comm, ih]
    · simp only [uniqueFirst, List.filter_cons, hx]
      simp only [Bool.false_eq_true, if_false]
      rw [← ih, List.filter_filter]
      refine List.filter_congr ?_
      intro a ha
      by_cases hax : a = x
      · subst hax
        simp [hx]
      · simp [hax]

theorem uniqueFirst_append_of_subset :
    ∀ (l₁ l₂ : List String), (∀ a ∈ l₂, a ∈ l₁) →
      uniqueFirst (l₁ ++ l₂) = uniqueFirst l₁ := by
  have main : ∀ (n : ℕ) (l₁ l₂ : List String), l₁.length ≤ n →
      (∀ a ∈ l₂, a ∈ l₁) → uniqueFirst (l₁ ++ l₂) = uniqueFirst l₁ := by
    intro n
    induction n with
    | zero =>
      intro l₁ l₂ hlen h
      rw [List.length_eq_zero.mp (Nat.le_zero.mp hlen)] at h ⊢
      cases l₂ with
      | nil => rfl
      | cons a t => exact absurd (h a (List.mem_cons_self a t)) (List.not_mem_nil a)
    | succ n ih =>
      intro l₁ l₂ hlen h
      cases l₁ with
      | nil =>
        cases l₂ with
        | nil => rfl
        | cons a t => exact absurd (h a (List.mem_cons_self a t)) (List.not_mem_nil a)
      | cons x xs =>
        simp only [List.cons_append, uniqueFirst]
        congr 1
        rw [uniqueFirst_filter, uniqueFirst_filter,
          show xs.append l₂ = xs ++ l₂ from rfl, List.filter_append]
        refine ih _ _ ?_ ?_
        · exact le_trans (List.length_filter_le _ xs) (Nat.le_of_succ_le_succ hlen)
        · intro a ha
          rw [List.mem_filter] at ha ⊢
          refine ⟨?_, ha.2⟩
          have hax : a ≠ x := by
            have := ha.2
            simpa using this
          rcases List.mem_cons.mp (h a ha.1) with rfl | hmem
          · exact absurd rfl hax
          · exact hmem
  exact fun l₁ l₂ h => main l₁.length l₁ l₂ le_rfl h

instance : IsTotal String strLE := by
  constructor
  intro a b
  exact strLE_total a b

instance : IsTrans String strLE := by
  constructor
  intro a b c
  exact strLE_trans

instance : IsAntisymm String strLE := by
  constructor
  intro a b
  exact strLE_antisymm

theorem keyLT_irrefl (a : String × String) : ¬ keyLT a a := by
  rintro (h | ⟨-, h⟩)
  · exact strLT_irrefl _ h
  · exact strLT_irrefl _ h

theorem keyLT_asymm {a b : String × String} (h1 : keyLT a b) (h2 : keyLT b a) : False := by
  rcases h1 with h1 | ⟨he1, h1⟩ <;> rcases h2 with h2 | ⟨he2, h2⟩
  · exact strLT_asymm h1 h2
  · exact strLT_irrefl _ (he2 ▸ h1)
  · exact strLT_irrefl _ (he1 ▸ h2)
  · exact strLT_asymm h1 h2

instance : IsAntisymm (String × String) keyLT := by
  constructor
  intro a b h1 h2
  exact absurd h2 fun h => keyLT_asymm h1 h

theorem nodup_of_pairwise_keyLT {l : List (String × String)}
    (h : l.Pairwise keyLT) : l.Nodup :=
  h.imp fun hab => fun he => keyLT_irrefl _ (he ▸ hab)

/-- The distinct benchmarks of an aggregated table, in sorted order. -/
def sortedBenchmarks (data : List AggRow) : List String :=
  List.insertionSort strLE ((data.map fun r => r.benchmark).dedup)

theorem mem_sortedBenchmarks {data : List AggRow} {m : String} :
    m ∈ sortedBenchmarks data ↔ m ∈ data.map fun r => r.benchmark := by
  rw [sortedBenchmarks, (List.perm_insertionSort strLE _).mem_iff, List.mem_dedup]

theorem nodup_sortedBenchmarks (data : List AggRow) : (sortedBenchmarks data).Nodup :=
  (List.perm_insertionSort strLE _).nodup_iff.mpr (List.nodup_dedup _)

theorem pairwise_sortedBenchmarks (data : List AggRow) :
    (sortedBenchmarks data).Pairwise strLT :=
  (((List.sorted_insertionSort strLE _).and (nodup_sortedBenchmarks data)).imp
    fun h => strLT_of_strLE_ne h.1 h.2)

/-- The keys of a full grid: every binary of `bs` paired with every
benchmark of `ms`, benchmarks fastest. -/
def keyProduct (bs ms : List String) : List (String × String) :=
  bs.flatMap fun b => ms.map fun m => (b, m)

theorem mem_keyProduct {bs ms : List String} {x : String × String} :
    x ∈ keyProduct bs ms ↔ x.1 ∈ bs ∧ x.2 ∈ ms := by
  simp only [keyProduct, List.mem_flatMap, List.mem_map]
  constructor
  · rintro ⟨b, hb, m, hm, rfl⟩
    exact ⟨hb, hm⟩
  · rintro ⟨hb, hm⟩
    exact ⟨x.1, hb, x.2, hm, rfl⟩

theorem pairwise_keyProduct {bs ms : List String} (hb : bs.Pairwise strLT)
    (hm : ms.Pairwise strLT) : (keyProduct bs ms).Pairwise keyLT := by
  induction bs with
  | nil => exact List.Pairwise.nil
  | cons b bs ih =>
    rw [keyProduct, List.flatMap_cons, List.pairwise_append]
    obtain ⟨hhead, htail⟩ := List.pairwise_cons.mp hb
    refine ⟨?_, ih htail, ?_⟩
    · exact hm.map _ fun _ _ h => Or.inr ⟨rfl, h⟩
    · intro x hx y hy
      obtain ⟨m, -, rfl⟩ := List.mem_map.mp hx
      obtain ⟨b', hb', m', -, rfl⟩ := by
        simpa only [keyProduct, List.mem_flatMap, List.mem_map] using hy
      exact Or.inl (hhead b' hb')

theorem filter_keyProduct {ms : List String} {b : String} :
    ∀ {bs : List String}, bs.Nodup → b ∈ bs →
      ((keyProduct bs ms).filter fun k => decide (k.1 = b)) = ms.map fun m => (b, m) := by
  intro bs
  induction bs with
  | nil => exact fun _ h => absurd h (List.not_mem_nil b)
  | cons b' bs ih =>
    intro hnd hmem
    rw [keyProduct, List.flatMap_cons, List.filter_append]
    rcases List.mem_cons.mp hmem with rfl | hmem
    · rw [List.filter_eq_self.mpr, List.filter_eq_nil_iff.mpr, List.append_nil]
      · intro a ha
        obtain ⟨b'', hb'', m, -, rfl⟩ := by
          simpa only [keyProduct, List.mem_flatMap, List.mem_map] using ha
        simp only [decide_eq_true_eq]
        exact fun he => (List.nodup_cons.mp hnd).1 (he ▸ hb'')
      · intro a ha
        obtain ⟨m, -, rfl⟩ := List.mem_map.mp ha
        simp
    · have hne : ¬ b' = b := fun he => (List.nodup_cons.mp hnd).1 (he ▸ hmem)
      have h1 : ((ms.map fun m => (b', m)).filter fun k => decide (k.1 = b)) = [] := by
        refine List.filter_eq_nil_iff.mpr ?_
        intro a ha
        obtain ⟨m, -, rfl⟩ := List.mem_map.mp ha
        simpa using hne
      rw [h1, List.nil_append]
      exact ih (List.nodup_cons.mp hnd).2 hmem

theorem filter_map_keyA (data : List AggRow) (b : String) :
    (data.filter fun r => decide (r.binary = b)).map keyA =
      (data.map keyA).filter fun k => decide (k.1 = b) := by
  rw [List.filter_map]
  rfl

theorem pairwise_uniqueFirst_binaries {data : List AggRow}
    (hsorted : (data.map keyA).Pairwise keyLT) :
    (uniqueFirst (data.map fun r => r.binary)).Pairwise strLT := by
  have h1 : ((data.map keyA).map Prod.fst).Pairwise strLE :=
    hsorted.map _ fun _ _ h => by
      rcases h with h | ⟨he, -⟩
      · exact Or.inl h
      · exact Or.inr he
  rw [List.map_map] at h1
  have h2 : (data.map fun r => r.binary).Pairwise strLE := h1
  have h3 : (uniqueFirst (data.map fun r => r.binary)).Pairwise strLE :=
    List.Pairwise.sublist (uniqueFirst_sublist (data.map fun r => r.binary)) h2
  exact (h3.and (nodup_uniqueFirst _)).imp fun h => strLT_of_strLE_ne h.1 h.2

/-- In a strictly sorted aggregated table in which every binary covers
every benchmark, the key sequence is exactly the full sorted grid. -/
theorem sorted_covered_keys {data : List AggRow}
    (hsorted : (data.map keyA).Pairwise keyLT)
    (hcov : ∀ r ∈ data, ∀ r' ∈ data, ∃ row ∈ data,
      row.binary = r.binary ∧ row.benchmark = r'.benchmark) :
    data.map keyA = keyProduct (uniqueFirst (data.map fun r => r.binary))
      (sortedBenchmarks data) := by
  refine List.eq_of_perm_of_sorted ?_ hsorted
    (pairwise_keyProduct (pairwise_uniqueFirst_binaries hsorted)
      (pairwise_sortedBenchmarks data))
  refine (List.perm_ext_iff_of_nodup (nodup_of_pairwise_keyLT hsorted)
    (nodup_of_pairwise_keyLT (pairwise_keyProduct
      (pairwise_uniqueFirst_binaries hsorted) (pairwise_sortedBenchmarks data)))).mpr ?_
  intro x
  rw [mem_keyProduct, mem_uniqueFirst, mem_sortedBenchmarks]
  constructor
  · rintro hx
    obtain ⟨row, hrow, rfl⟩ := List.mem_map.mp hx
    exact ⟨List.mem_map.mpr ⟨row, hrow, rfl⟩, List.mem_map.mpr ⟨row, hrow, rfl⟩⟩
  · rintro ⟨h1, h2⟩
    obtain ⟨r, hr, hr1⟩ := List.mem_map.mp h1
    obtain ⟨r', hr', hr2⟩ := List.mem_map.mp h2
    obtain ⟨row, hrowmem, hb, hbf⟩ := hcov r hr r' hr'
    refine List.mem_map.mpr ⟨row, hrowmem, ?_⟩
    show (row.binary, row.benchmark) = x
    rw [hb, hbf, hr1, hr2]

/-- Under the same hypotheses, the order-of-first-appearance list of
distinct benchmarks is already sorted: it is the sorted distinct
benchmark list. -/
theorem uniqueFirst_benchmarks_eq {data : List AggRow} (hne : data ≠ [])
    (hsorted : (data.map keyA).Pairwise keyLT)
    (hcov : ∀ r ∈ data, ∀ r' ∈ data, ∃ row ∈ data,
      row.binary = r.binary ∧ row.benchmark = r'.benchmark) :
    uniqueFirst (data.map fun r => r.benchmark) = sortedBenchmarks data := by
  have hK := sorted_covered_keys hsorted hcov
  have hbm : (data.map fun r => r.benchmark) = (data.map keyA).map Prod.snd := by
    rw [List.map_map]
    rfl
  rw [hbm, hK, keyProduct, List.map_flatMap]
  have hblock : (fun b => ((sortedBenchmarks data).map fun m => (b, m)).map Prod.snd) =
      fun _ : String => sortedBenchmarks data := by
    funext b
    rw [List.map_map]
    exact List.map_id _
  rw [hblock]
  obtain ⟨b₀, Bs, hB⟩ : ∃ b₀ Bs,
      uniqueFirst (data.map fun r => r.binary) = b₀ :: Bs := by
    cases hu : uniqueFirst (data.map fun r => r.binary) with
    | nil =>
      obtain ⟨r₀, hr₀⟩ := List.exists_mem_of_ne_nil data hne
      have : r₀.binary ∈ uniqueFirst (data.map fun r => r.binary) :=
        mem_uniqueFirst.mpr (List.mem_map.mpr ⟨r₀, hr₀, rfl⟩)
      rw [hu] at this
      exact absurd this (List.not_mem_nil _)
    | cons b₀ Bs => exact ⟨b₀, Bs, rfl⟩
  rw [hB, List.flatMap_cons]
  rw [uniqueFirst_append_of_subset _ _ ?_,
    uniqueFirst_of_nodup (nodup_sortedBenchmarks data)]
  intro a ha
  obtain ⟨-, -, ha⟩ := List.mem_flatMap.mp ha
  exact ha

theorem buildAll_cons_ok {data : List AggRow} {benchmarks : List String} {bw : ℚ}
    {i : ℕ} {bnry : String} {bs : List String} {s : Series} {rest : List Series}
    (h1 : seriesFor data benchmarks bw i bnry = .ok s)
    (h2 : buildAll data benchmarks bw (i + 1) bs = .ok rest) :
    buildAll data benchmarks bw i (bnry :: bs) = .ok (s :: rest) := by
  simp only [buildAll, h1, h2]

theorem buildAll_ok_of_lengths {data : List AggRow} {benchmarks : List String} {bw : ℚ} :
    ∀ (i : ℕ) (bs : List String),
      (∀ b ∈ bs, (data.filter fun r => decide (r.binary = b)).length = benchmarks.length) →
      ∃ ss, buildAll data benchmarks bw i bs = .ok ss := by
  intro i bs
  induction bs generalizing i with
  | nil => exact fun _ => ⟨[], rfl⟩
  | cons bnry bs ih =>
    intro h
    obtain ⟨rest, hrest⟩ := ih (i + 1) fun b hb => h b (List.mem_cons_of_mem bnry hb)
    have hsf := @seriesFor_of_length_eq data benchmarks bw i bnry
      (h bnry (List.mem_cons_self bnry bs))
    exact ⟨_, buildAll_cons_ok hsf hrest⟩

theorem buildAll_ok_get {data : List AggRow} {benchmarks : List String} {bw : ℚ} :
    ∀ {i : ℕ} {bs : List String} {ss : List Series},
      buildAll data benchmarks bw i bs = .ok ss →
      ss.length = bs.length ∧
      ∀ t b', bs[t]? = some b' → ∃ s, ss[t]? = some s ∧
        seriesFor data benchmarks bw (i + t) b' = .ok s := by
  intro i bs
  induction bs generalizing i with
  | nil =>
    intro ss h
    simp only [buildAll] at h
    obtain rfl := (Except.ok.inj h).symm
    refine ⟨rfl, ?_⟩
    intro t b' ht
    simp at ht
  | cons bnry bs ih =>
    intro ss h
    simp only [buildAll] at h
    split at h
    · exact absurd h (by simp)
    next s₀ hs₀ =>
      split at h
      · exact absurd h (by simp)
      next rest hrest =>
        obtain rfl := (Except.ok.inj h).symm
        obtain ⟨hlen, hidx⟩ := ih hrest
        refine ⟨by simp [hlen], ?_⟩
        intro t b' ht
        cases t with
        | zero =>
          simp only [List.getElem?_cons_zero, Option.some.injEq] at ht
          subst ht
          exact ⟨s₀, by simp, by simpa using hs₀⟩
        | succ t =>
          simp only [List.getElem?_cons_succ] at ht ⊢
          obtain ⟨s, hs, hsf⟩ := hidx t b' ht
          refine ⟨s, hs, ?_⟩
          rw [show i + (t + 1) = (i + 1) + t by omega]
          exact hsf

/-- C7, amended: for every nonempty aggregated table with strictly
sorted keys (as `process_benchmark_data` produces) in which every
distinct binary has a row for every distinct benchmark, the renderer
succeeds and draws, for the `i`-th distinct binary, exactly one bar per
distinct benchmark: the bar for the `j`-th benchmark sits at offset
position `j + i * (0.8 / number of binaries)` — side by side with the
other binaries' bars for that benchmark — and its height is that
binary's aggregated mean runtime for that benchmark. -/
theorem C7_grouped_bars_aligned (data : List AggRow) (op : Option String)
    (hne : data ≠ [])
    (hsorted : (data.map keyA).Pairwise keyLT)
    (hcov : ∀ r ∈ data, ∀ r' ∈ data, ∃ row ∈ data,
      row.binary = r.binary ∧ row.benchmark = r'.benchmark) :
    ∃ chart : Chart, create_bar_chart data op = .ok chart ∧
      chart.series.length = (uniqueFirst (data.map fun r => r.binary)).length ∧
      ∀ (i : ℕ) (bnry : String),
        (uniqueFirst (data.map fun r => r.binary))[i]? = some bnry →
        ∃ s : Series, chart.series[i]? = some s ∧ s.label = pathName bnry ∧
          s.bars.length = (uniqueFirst (data.map fun r => r.benchmark)).length ∧
          ∀ (j : ℕ) (bm : String),
            (uniqueFirst (data.map fun r => r.benchmark))[j]? = some bm →
            ∃ row ∈ data, row.binary = bnry ∧ row.benchmark = bm ∧
              s.bars[j]? = some (Bar.mk ((j : ℚ) + (i : ℚ) *
                  ((4 / 5 : ℚ) / ((uniqueFirst (data.map fun r => r.binary)).length : ℚ)))
                row.runtime
                ((4 / 5 : ℚ) / ((uniqueFirst (data.map fun r => r.binary)).length : ℚ))) := by
  have hMeq : uniqueFirst (data.map fun r => r.benchmark) = sortedBenchmarks data :=
    uniqueFirst_benchmarks_eq hne hsorted hcov
  have hK := sorted_covered_keys hsorted hcov
  have hBnd : (uniqueFirst (data.map fun r => r.binary)).Nodup := nodup_uniqueFirst _
  have hblock : ∀ b ∈ uniqueFirst (data.map fun r => r.binary),
      ((data.filter fun r => decide (r.binary = b)).map keyA) =
        (sortedBenchmarks data).map fun m => (b, m) := by
    intro b hb
    rw [filter_map_keyA, hK, filter_keyProduct hBnd hb]
  have hlen : ∀ b ∈ uniqueFirst (data.map fun r => r.binary),
      (data.filter fun r => decide (r.binary = b)).length =
        (uniqueFirst (data.map fun r => r.benchmark)).length := by
    intro b hb
    have h1 := congrArg List.length (hblock b hb)
    simp only [List.length_map] at h1
    rw [hMeq]
    exact h1
  have hBne : uniqueFirst (data.map fun r => r.binary) ≠ [] := by
    obtain ⟨r₀, hr₀⟩ := List.exists_mem_of_ne_nil data hne
    intro hBnil
    have hmem : r₀.binary ∈ uniqueFirst (data.map fun r => r.binary) :=
      mem_uniqueFirst.mpr (List.mem_map.mpr ⟨r₀, hr₀, rfl⟩)
    rw [hBnil] at hmem
    exact absurd hmem (List.not_mem_nil _)
  have hBlen : ¬ (uniqueFirst (data.map fun r => r.binary)).length = 0 := by
    simpa [List.length_eq_zero] using hBne
  obtain ⟨ss, hss⟩ := @buildAll_ok_of_lengths data
    (uniqueFirst (data.map fun r => r.benchmark))
    ((4 / 5 : ℚ) / ((uniqueFirst (data.map fun r => r.binary)).length : ℚ))
    0 (uniqueFirst (data.map fun r => r.binary)) hlen
  have hchart : create_bar_chart data op = .ok
      ⟨ss, List.range (uniqueFirst (data.map fun r => r.benchmark)).length,
        (uniqueFirst (data.map fun r => r.benchmark)).map pathStem,
        (uniqueFirst (data.map fun r => r.binary)).map pathName, outputActionOf op⟩ := by
    simp only [create_bar_chart]
    rw [if_neg hBlen, hss]
  refine ⟨_, hchart, (buildAll_ok_get hss).1, ?_⟩
  intro i bnry hBi
  obtain ⟨s, hsi, hsf⟩ := (buildAll_ok_get hss).2 i bnry hBi
  simp only [Nat.zero_add] at hsf
  have hmemB : bnry ∈ uniqueFirst (data.map fun r => r.binary) := by
    obtain ⟨hlt, rfl⟩ := List.getElem?_eq_some.mp hBi
    exact List.getElem_mem _
  have hslen := hlen bnry hmemB
  have hseq : s = Series.mk (pathName bnry)
      (List.map (fun ph => Bar.mk ph.1 ph.2
          ((4 / 5 : ℚ) / ((uniqueFirst (data.map fun r => r.binary)).length : ℚ)))
        (List.zip
          (List.map (fun (p : ℕ) => (p : ℚ) + (i : ℚ) *
              ((4 / 5 : ℚ) / ((uniqueFirst (data.map fun r => r.binary)).length : ℚ)))
            (List.range (uniqueFirst (data.map fun r => r.benchmark)).length))
          (List.map (fun r => r.runtime)
            (data.filter fun r => decide (r.binary = bnry))))) :=
    (Except.ok.inj ((@seriesFor_of_length_eq data
      (uniqueFirst (data.map fun r => r.benchmark))
      ((4 / 5 : ℚ) / ((uniqueFirst (data.map fun r => r.binary)).length : ℚ))
      i bnry hslen).symm.trans hsf)).symm
  have hbd := hblock bnry hmemB
  refine ⟨s, hsi, by rw [hseq], ?_, ?_⟩
  · rw [hseq]
    simp only [List.length_map, List.length_zip, List.length_range, hslen]
    exact Nat.min_self _
  · intro j bm hMj
    obtain ⟨hjlt, hMget⟩ := List.getElem?_eq_some.mp hMj
    have hmk : ((data.filter fun r => decide (r.binary = bnry)).map keyA)[j]? =
        some (bnry, bm) := by
      rw [hbd, List.getElem?_map, ← hMeq]
      rw [List.getElem?_eq_some.mpr ⟨hjlt, hMget⟩]
      rfl
    rw [List.getElem?_map] at hmk
    obtain ⟨row, hrow_j, hrow_key⟩ := Option.map_eq_some'.mp hmk
    have hrow_memf : row ∈ data.filter fun r => decide (r.binary = bnry) := by
      obtain ⟨hlt, rfl⟩ := List.getElem?_eq_some.mp hrow_j
      exact List.getElem_mem _
    have hrow_mem : row ∈ data := List.mem_of_mem_filter hrow_memf
    refine ⟨row, hrow_mem, congrArg Prod.fst hrow_key, congrArg Prod.snd hrow_key, ?_⟩
    rw [hseq]
    simp only [List.getElem?_map, List.zip_eq_zipWith, List.getElem?_zipWith]
    rw [List.getElem?_range hjlt, hrow_j]
    rfl

/-- C7 counterexample: a two-row aggregated table (keys strictly sorted,
as the aggregator produces) in which binary `x` has no row for benchmark
`b`.  matplotlib broadcasts the single height of each binary against the
two benchmark positions, so each binary gets two bars of the same
height: the bar drawn for binary `x` over benchmark `b` (index 1) has
height `1`, although the table holds no mean runtime for the pair
`(x, b)` at all — the drawn chart does not pair each bar with that
binary's mean for that benchmark, refuting the claim as stated. -/
theorem C7_grouped_bars_cex :
    (([(⟨"x", "a", some 1⟩ : AggRow), ⟨"y", "b", some 2⟩].map keyA).Pairwise keyLT)
    ∧ (((create_bar_chart [⟨"x", "a", some 1⟩, ⟨"y", "b", some 2⟩]
        none).toOption.getD default).series.map
          fun s => s.bars.map fun b => b.height) =
      [[some 1, some 1], [some 2, some 2]]
    ∧ ¬ ∃ row ∈ [(⟨"x", "a", some 1⟩ : AggRow), ⟨"y", "b", some 2⟩],
        row.binary = "x" ∧ row.benchmark = "b" :=
  ⟨by decide, by decide, by decide⟩

/-- C7 witness: a full 2 binaries x 2 benchmarks table, where the
amended claim's hypotheses hold concretely. -/
theorem C7_grouped_bars_aligned_witness :
    ∃ chart : Chart,
      create_bar_chart
        [⟨"x", "a", some 1⟩, ⟨"x", "b", some 2⟩, ⟨"y", "a", some 3⟩, ⟨"y", "b", some 4⟩]
        none = .ok chart ∧
      chart.series.length = (uniqueFirst (([⟨"x", "a", some 1⟩, ⟨"x", "b", some 2⟩,
        ⟨"y", "a", some 3⟩, ⟨"y", "b", some 4⟩] : List AggRow).map
          fun r => r.binary)).length ∧
      ∀ (i : ℕ) (bnry : String),
        (uniqueFirst (([⟨"x", "a", some 1⟩, ⟨"x", "b", some 2⟩, ⟨"y", "a", some 3⟩,
          ⟨"y", "b", some 4⟩] : List AggRow).map fun r => r.binary))[i]? = some bnry →
        ∃ s : Series, chart.series[i]? = some s ∧ s.label = pathName bnry ∧
          s.bars.length = (uniqueFirst (([⟨"x", "a", some 1⟩, ⟨"x", "b", some 2⟩,
            ⟨"y", "a", some 3⟩, ⟨"y", "b", some 4⟩] : List AggRow).map
              fun r => r.benchmark)).length ∧
          ∀ (j : ℕ) (bm : String),
            (uniqueFirst (([⟨"x", "a", some 1⟩, ⟨"x", "b", some 2⟩, ⟨"y", "a", some 3⟩,
              ⟨"y", "b", some 4⟩] : List AggRow).map fun r => r.benchmark))[j]? = some bm →
            ∃ row ∈ ([⟨"x", "a", some 1⟩, ⟨"x", "b", some 2⟩, ⟨"y", "a", some 3⟩,
              ⟨"y", "b", some 4⟩] : List AggRow),
              row.binary = bnry ∧ row.benchmark = bm ∧
              s.bars[j]? = some (Bar.mk ((j : ℚ) + (i : ℚ) *
                  ((4 / 5 : ℚ) / ((uniqueFirst (([⟨"x", "a", some 1⟩, ⟨"x", "b", some 2⟩,
                    ⟨"y", "a", some 3⟩, ⟨"y", "b", some 4⟩] : List AggRow).map
                      fun r => r.binary)).length : ℚ)))
                row.runtime
                ((4 / 5 : ℚ) / ((uniqueFirst (([⟨"x", "a", some 1⟩, ⟨"x", "b", some 2⟩,
                  ⟨"y", "a", some 3⟩, ⟨"y", "b", some 4⟩] : List AggRow).map
                    fun r => r.binary)).length : ℚ))) :=
  C7_grouped_bars_aligned _ none (by decide) (by decide) (by decide)

end BenchmarkPlot
